import Mathlib

/-!
Verification of the graph ingestion and cycle-detection core of the
VectorShift pipeline service.

The core consists of two functions:

* `is_dag nodes edges` — three-color depth-first search deciding whether the
  directed graph described by a node list and an edge list is acyclic.  The
  source builds the set of known node identifiers, an adjacency map keeping
  only edges whose source is known, and runs a recursive `dfs` with a
  `WHITE / GRAY / BLACK` coloring, aborting as soon as a `GRAY` neighbor is
  seen.
* `parse_pipeline nodes edges` — returns the triple
  `(num_nodes, num_edges, is_dag nodes edges)` where the counts are the raw
  lengths of the submitted lists.

The recursion of the source `dfs` terminates because it only recurses into
`WHITE` nodes and colors a node `GRAY` on entry; the embedding makes this
explicit with a fuel parameter (one unit per nested `dfs` call) and a proof
that fuel equal to the number of known nodes always suffices, so the fuel
bound is never hit.  The run is additionally instrumented with a trace of all
color writes, used to state the color state-machine invariants.
-/

namespace VecShift

/-- The three traversal colors of the source's depth-first search:
`WHITE = 0` (not visited), `GRAY = 1` (in the current path),
`BLACK = 2` (completely processed). -/
inductive Color where
  | white
  | gray
  | black
deriving DecidableEq, Repr

/-- The mutable `color` dictionary of the source, modelled as a total map from
identifiers to colors.  Only the identifiers in the known-node set are ever
consulted. -/
abbrev CMap := String → Color

/-- Functional update of a color map: `color[x] = v`. -/
def updateColor (c : CMap) (x : String) (v : Color) : CMap :=
  fun y => if y = x then v else c y

/-- A trace of color writes `(node, new color)` performed by one detection
pass, in execution order.  This instruments the source's mutation of the
`color` dictionary. -/
abbrev Trace := List (String × Color)

/-- A node of a pipeline request, after Pydantic validation: an identifier
plus fields the core never reads (`type`, `position`, `data`).  The unread
`position` and `data` payloads are opaque to the core, so they are embedded
with arbitrary types `π` and `δ`. -/
structure Node (π δ : Type) where
  id : String
  type : Option String
  position : Option π
  data : Option δ
deriving DecidableEq

/-- An edge of a pipeline request: a source and a target identifier plus
fields the core never reads (`id`, `sourceHandle`, `targetHandle`). -/
structure Edge where
  id : Option String
  source : String
  target : String
  sourceHandle : Option String
  targetHandle : Option String
deriving DecidableEq

/-- The response model: `num_nodes`, `num_edges`, `is_dag`. -/
structure PipelineResponse where
  num_nodes : Nat
  num_edges : Nat
  is_dag : Bool
deriving DecidableEq, Repr

section DFS

variable (adj : String → List String) (known : String → Bool)

/-- The source's `for neighbor in adj.get(node, [])` loop: skip unknown
neighbors (`neighbor not in color`), abort on a `GRAY` neighbor, recurse into
`WHITE` neighbors (through `dfsRec`, the enclosing `dfs` at the remaining
call-stack budget), skip `BLACK` ones. -/
def dfsNbrsGo (dfsRec : String → CMap → Option (Bool × CMap × Trace)) :
    List String → CMap → Option (Bool × CMap × Trace)
  | [], c => some (true, c, [])
  | m :: rest, c =>
    if known m = false then dfsNbrsGo dfsRec rest c
    else if c m = Color.gray then some (false, c, [])
    else if c m = Color.white then
      match dfsRec m c with
      | none => none
      | some (false, c', tr) => some (false, c', tr)
      | some (true, c', tr) =>
        match dfsNbrsGo dfsRec rest c' with
        | none => none
        | some (b, c'', tr') => some (b, c'', tr ++ tr')
    else dfsNbrsGo dfsRec rest c

end DFS

/-- The source's inner `dfs(node)`: color the node `GRAY`, scan its adjacency
list, and color the node `BLACK` if no cycle was found.  `fuel` bounds the
depth of nested `dfs` calls (the source relies on the call stack); `none`
means the bound was exhausted — fuel equal to the number of `WHITE` nodes is
proved sufficient below.  Returns the boolean result, the final color map and
the trace of color writes. -/
def dfsF (adj : String → List String) (known : String → Bool) :
    Nat → String → CMap → Option (Bool × CMap × Trace)
  | 0, _, _ => none
  | fuel + 1, node, c =>
    match dfsNbrsGo known (dfsF adj known fuel) (adj node)
        (updateColor c node Color.gray) with
    | none => none
    | some (false, c', tr) => some (false, c', (node, Color.gray) :: tr)
    | some (true, c', tr) =>
      some (true, updateColor c' node Color.black,
        (node, Color.gray) :: (tr ++ [(node, Color.black)]))

section DFSOuter

variable (adj : String → List String) (known : String → Bool)

/-- The source's outer loop `for node_id in node_ids: if color[node_id] ==
WHITE: if not dfs(node_id): return False`, over the listed identifiers. -/
def dfsAllF (fuel : Nat) : List String → CMap → Option (Bool × CMap × Trace)
  | [], c => some (true, c, [])
  | n :: rest, c =>
    if c n = Color.white then
      match dfsF adj known fuel n c with
      | none => none
      | some (false, c', tr) => some (false, c', tr)
      | some (true, c', tr) =>
        match dfsAllF fuel rest c' with
        | none => none
        | some (b, c'', tr') => some (b, c'', tr ++ tr')
    else dfsAllF fuel rest c

end DFSOuter

/-- The source's `node_ids = {node.id for node in nodes}` set, modelled as the
deduplicated identifier list (membership is what the algorithm consults; the
boolean result is proved independent of the enumeration order). -/
def nodeIdsOf {π δ : Type} (nodes : List (Node π δ)) : List String :=
  (nodes.map Node.id).dedup

/-- The source's adjacency dictionary: a key for every known identifier, and
for each edge whose source is a key, the target appended to that key's list
(`if edge.source in adj: adj[edge.source].append(edge.target)`).  Lookup of a
non-key yields `[]`, matching `adj.get(node, [])`. -/
def adjOf (nodeIds : List String) (es : List (String × String)) (s : String) :
    List String :=
  if s ∈ nodeIds then (es.filter (fun e => e.1 == s)).map Prod.snd else []

/-- Key-membership test of the source's `color` dictionary (whose key set is
exactly the known-node set): `neighbor not in color`. -/
def knownOf (nodeIds : List String) (s : String) : Bool :=
  s ∈ nodeIds

/-- One full detection pass over identifier/pair lists: build the known-node
set and the adjacency map, start all-`WHITE`, and run the outer loop with
fuel equal to the number of known nodes (proved sufficient below). -/
def runDetect (ids : List String) (es : List (String × String)) :
    Option (Bool × CMap × Trace) :=
  dfsAllF (adjOf ids.dedup es) (knownOf ids.dedup) ids.dedup.length ids.dedup
    (fun _ => Color.white)

/-- The source's `is_dag(nodes, edges)`: `True` on an empty node list,
otherwise the boolean of the detection pass over the node identifiers and the
`(source, target)` pairs — the only fields the source reads. -/
def is_dag {π δ : Type} (nodes : List (Node π δ)) (edges : List Edge) : Bool :=
  if nodes.isEmpty then true
  else
    match runDetect (nodes.map Node.id)
        (edges.map fun e => (e.source, e.target)) with
    | some (b, _, _) => b
    | none => false

/-- The source's `parse_pipeline` endpoint body: raw list lengths plus the
detector's boolean. -/
def parse_pipeline {π δ : Type} (nodes : List (Node π δ)) (edges : List Edge) :
    PipelineResponse :=
  ⟨nodes.length, edges.length, is_dag nodes edges⟩

/-- The trace of color writes of one detection pass (empty if the fuel bound
were ever hit, which is proved impossible). -/
def traceOf (ids : List String) (es : List (String × String)) : Trace :=
  match runDetect ids es with
  | some (_, _, tr) => tr
  | none => []

/-- The directed-edge relation of the graph that the detector effectively
traverses: `(x, y)` is a submitted pair and both endpoints appear in the
submitted identifier list. -/
def edgeRel (ids : List String) (es : List (String × String))
    (x y : String) : Prop :=
  (x, y) ∈ es ∧ x ∈ ids ∧ y ∈ ids

/-- A directed cycle exists: some identifier reaches itself by a nonempty
path of effective edges.  This covers self-loops (a one-step path). -/
def hasCycle (ids : List String) (es : List (String × String)) : Prop :=
  ∃ x, Relation.TransGen (edgeRel ids es) x x

/-- Legality of a single color write on the current map: a node may be
written `GRAY` only from `WHITE`, `BLACK` only from `GRAY`, and is never
written `WHITE`. -/
def validWrite (c : CMap) (x : String) : Color → Bool
  | Color.gray => decide (c x = Color.white)
  | Color.black => decide (c x = Color.gray)
  | Color.white => false

/-- Legality of a write trace from a given starting map: every write is
either `WHITE → GRAY` or `GRAY → BLACK` on the node's current color.  This is
the one-directional state machine of a single detection pass. -/
def validTrace (c : CMap) : Trace → Bool
  | [] => true
  | (x, v) :: tr => validWrite c x v && validTrace (updateColor c x v) tr

/-- Replaying a write trace over a starting color map. -/
def replay (c : CMap) (tr : Trace) : CMap :=
  tr.foldl (fun c p => updateColor c p.1 p.2) c

/-- Number of `GRAY` writes to `x` in a trace (how often `x` enters the
in-progress state). -/
def grayWrites (x : String) (tr : Trace) : Nat :=
  (tr.filter (fun p => p.1 == x && p.2 == Color.gray)).length

/-- Pointwise color evolution along any prefix of a run: a non-`WHITE` color
is never changed, a `WHITE` node may move to a non-`WHITE` color. -/
def stepAny (a b : Color) : Prop :=
  b = a ∨ (a = Color.white ∧ b ≠ Color.white)

/-- Pointwise color evolution across a completed (successful) subcall: a node
either keeps its color or goes from `WHITE` all the way to `BLACK`. -/
def stepDone (a b : Color) : Prop :=
  b = a ∨ (a = Color.white ∧ b = Color.black)

/-- Number of `WHITE` nodes of the known-node list under a color map: the
termination measure of the source's recursion. -/
def wcount (L : List String) (c : CMap) : Nat :=
  L.countP (fun x => decide (c x = Color.white))

lemma stepAny_refl (a : Color) : stepAny a a := Or.inl rfl

lemma stepAny_trans {a b c : Color} (h1 : stepAny a b) (h2 : stepAny b c) :
    stepAny a c := by
  rcases h1 with h1 | ⟨ha, hb⟩
  · rw [h1] at h2; exact h2
  · rcases h2 with h2 | ⟨hb', hc⟩
    · exact Or.inr ⟨ha, h2 ▸ hb⟩
    · exact absurd hb' hb

lemma stepDone_refl (a : Color) : stepDone a a := Or.inl rfl

lemma stepDone_trans {a b c : Color} (h1 : stepDone a b) (h2 : stepDone b c) :
    stepDone a c := by
  rcases h1 with h1 | ⟨ha, hb⟩
  · rw [h1] at h2; exact h2
  · rcases h2 with h2 | ⟨hb', hc⟩
    · exact Or.inr ⟨ha, h2 ▸ hb⟩
    · rw [hb] at hb'; cases hb'

lemma stepDone_stepAny {a b : Color} (h : stepDone a b) : stepAny a b := by
  rcases h with h | ⟨ha, hb⟩
  · exact Or.inl h
  · exact Or.inr ⟨ha, by rw [hb]; intro hx; cases hx⟩

lemma stepAny_gray {b : Color} (h : stepAny Color.gray b) : b = Color.gray := by
  rcases h with h | ⟨h, -⟩
  · exact h
  · cases h

lemma stepAny_black {b : Color} (h : stepAny Color.black b) : b = Color.black := by
  rcases h with h | ⟨h, -⟩
  · exact h
  · cases h

lemma stepDone_gray {b : Color} (h : stepDone Color.gray b) : b = Color.gray := by
  rcases h with h | ⟨h, -⟩
  · exact h
  · cases h

lemma stepDone_black {b : Color} (h : stepDone Color.black b) : b = Color.black := by
  rcases h with h | ⟨h, -⟩
  · exact h
  · cases h

lemma stepAny_white_of_white {a b : Color} (h : stepAny a b)
    (hb : b = Color.white) : a = Color.white := by
  rcases h with h | ⟨ha, hb'⟩
  · rw [← h, hb]
  · exact ha

lemma updateColor_self (c : CMap) (x : String) (v : Color) :
    updateColor c x v x = v := by
  simp [updateColor]

lemma updateColor_of_ne (c : CMap) (x : String) (v : Color) {y : String}
    (h : y ≠ x) : updateColor c x v y = c y := by
  simp [updateColor, h]

lemma wcount_le_of_stepAny {L : List String} {c c' : CMap}
    (h : ∀ x, stepAny (c x) (c' x)) : wcount L c' ≤ wcount L c := by
  refine List.countP_mono_left ?_
  intro a _ ha
  have ha' : c' a = Color.white := of_decide_eq_true ha
  exact decide_eq_true (stepAny_white_of_white (h a) ha')

lemma wcount_pos {L : List String} {c : CMap} {n : String} (hn : n ∈ L)
    (hw : c n = Color.white) : 0 < wcount L c := by
  rw [wcount, List.countP_pos_iff]
  exact ⟨n, hn, decide_eq_true hw⟩

lemma wcount_update_gray {L : List String} (hL : L.Nodup) {c : CMap}
    {n : String} (hn : n ∈ L) (hw : c n = Color.white) :
    wcount L c = wcount L (updateColor c n Color.gray) + 1 := by
  induction L with
  | nil => cases hn
  | cons a L ih =>
    rcases List.nodup_cons.mp hL with ⟨hna, hLd⟩
    simp only [wcount, List.countP_cons]
    rcases List.mem_cons.mp hn with rfl | hmem
    · have h1 : (decide (c n = Color.white)) = true := decide_eq_true hw
      have h2 : (decide (updateColor c n Color.gray n = Color.white)) = false := by
        rw [updateColor_self]; simp
      rw [h1, h2]
      have hcong : L.countP (fun x => decide (c x = Color.white)) =
          L.countP (fun x => decide (updateColor c n Color.gray x = Color.white)) := by
        refine List.countP_congr ?_
        intro b hb
        have : b ≠ n := fun hba => hna (hba ▸ hb)
        rw [updateColor_of_ne _ _ _ this]
      simp only [wcount] at hcong
      simp [hcong]
    · have hne : a ≠ n := fun han => hna (han ▸ hmem)
      rw [updateColor_of_ne _ _ _ hne]
      have := ih hLd hmem
      simp only [wcount] at this
      omega

section ShapeLemmas

variable (adj : String → List String) (known : String → Bool)

lemma dfsNbrs_stepAny (fuel : Nat)
    (hF : ∀ n c b c' tr, dfsF adj known fuel n c = some (b, c', tr) →
      c n = Color.white → ∀ x, stepAny (c x) (c' x)) :
    ∀ l c b c' tr, dfsNbrsGo known (dfsF adj known fuel) l c = some (b, c', tr) →
      ∀ x, stepAny (c x) (c' x) := by
  intro l
  induction l with
  | nil =>
    intro c b c' tr h x
    rw [dfsNbrsGo] at h
    simp only [Option.some.injEq, Prod.mk.injEq] at h
    obtain ⟨-, hc, -⟩ := h
    rw [← hc]
    exact stepAny_refl _
  | cons m rest ih =>
    intro c b c' tr h x
    rw [dfsNbrsGo] at h
    by_cases hk : known m = false
    · rw [if_pos hk] at h
      exact ih c b c' tr h x
    · rw [if_neg hk] at h
      by_cases hg : c m = Color.gray
      · rw [if_pos hg] at h
        simp only [Option.some.injEq, Prod.mk.injEq] at h
        obtain ⟨-, hc, -⟩ := h
        rw [← hc]
        exact stepAny_refl _
      · rw [if_neg hg] at h
        by_cases hw : c m = Color.white
        · rw [if_pos hw] at h
          cases hd : dfsF adj known fuel m c with
          | none => rw [hd] at h; cases h
          | some r1 =>
            obtain ⟨b1, c1, tr1⟩ := r1
            rw [hd] at h
            cases b1 with
            | false =>
              simp only [Option.some.injEq, Prod.mk.injEq] at h
              obtain ⟨-, hc, -⟩ := h
              rw [← hc]
              exact hF m c false c1 tr1 hd hw x
            | true =>
              dsimp only at h
              cases hrest : dfsNbrsGo known (dfsF adj known fuel) rest c1 with
              | none => rw [hrest] at h; cases h
              | some r2 =>
                obtain ⟨b2, c2, tr2⟩ := r2
                rw [hrest] at h
                simp only [Option.some.injEq, Prod.mk.injEq] at h
                obtain ⟨-, hc, -⟩ := h
                rw [← hc]
                exact stepAny_trans (hF m c true c1 tr1 hd hw x)
                  (ih c1 b2 c2 tr2 hrest x)
        · rw [if_neg hw] at h
          exact ih c b c' tr h x

lemma dfsF_stepAny :
    ∀ fuel n c b c' tr, dfsF adj known fuel n c = some (b, c', tr) →
      c n = Color.white → ∀ x, stepAny (c x) (c' x) := by
  intro fuel
  induction fuel with
  | zero =>
    intro n c b c' tr h
    rw [dfsF] at h
    cases h
  | succ fuel ih =>
    intro n c b c' tr h hw x
    rw [dfsF] at h
    cases hd : dfsNbrsGo known (dfsF adj known fuel) (adj n) (updateColor c n Color.gray) with
    | none => rw [hd] at h; cases h
    | some r1 =>
      obtain ⟨b1, c1, tr1⟩ := r1
      rw [hd] at h
      have hstep1 : ∀ y, stepAny (updateColor c n Color.gray y) (c1 y) :=
        dfsNbrs_stepAny adj known fuel ih (adj n) _ b1 c1 tr1 hd
      have hbase : ∀ y, stepAny (c y) (updateColor c n Color.gray y) := by
        intro y
        by_cases hy : y = n
        · subst hy
          rw [updateColor_self, hw]
          exact Or.inr ⟨rfl, by intro hx; cases hx⟩
        · rw [updateColor_of_ne _ _ _ hy]
          exact stepAny_refl _
      cases b1 with
      | false =>
        simp only [Option.some.injEq, Prod.mk.injEq] at h
        obtain ⟨-, hc, -⟩ := h
        rw [← hc]
        exact stepAny_trans (hbase x) (hstep1 x)
      | true =>
        simp only [Option.some.injEq, Prod.mk.injEq] at h
        obtain ⟨-, hc, -⟩ := h
        rw [← hc]
        by_cases hx : x = n
        · subst hx
          rw [updateColor_self, hw]
          exact Or.inr ⟨rfl, by intro hc2; cases hc2⟩
        · rw [updateColor_of_ne _ _ _ hx]
          exact stepAny_trans (hbase x) (hstep1 x)

lemma dfsNbrs_stepDone (fuel : Nat)
    (hF : ∀ n c c' tr, dfsF adj known fuel n c = some (true, c', tr) →
      c n = Color.white →
      (∀ x, stepDone (c x) (c' x)) ∧ c' n = Color.black) :
    ∀ l c c' tr, dfsNbrsGo known (dfsF adj known fuel) l c = some (true, c', tr) →
      (∀ x, stepDone (c x) (c' x)) ∧
        ∀ m ∈ l, known m = true → c' m = Color.black := by
  intro l
  induction l with
  | nil =>
    intro c c' tr h
    rw [dfsNbrsGo] at h
    simp only [Option.some.injEq, Prod.mk.injEq] at h
    obtain ⟨-, hc, -⟩ := h
    rw [← hc]
    exact ⟨fun x => stepDone_refl _, fun m hm => absurd hm (List.not_mem_nil m)⟩
  | cons m rest ih =>
    intro c c' tr h
    rw [dfsNbrsGo] at h
    by_cases hk : known m = false
    · rw [if_pos hk] at h
      obtain ⟨hstep, hblack⟩ := ih c c' tr h
      refine ⟨hstep, ?_⟩
      intro m' hm' hkm'
      rcases List.mem_cons.mp hm' with rfl | hmem
      · rw [hkm'] at hk; cases hk
      · exact hblack m' hmem hkm'
    · rw [if_neg hk] at h
      have hk' : known m = true := by
        cases hkm : known m
        · rw [hkm] at hk; cases hk rfl
        · rfl
      by_cases hg : c m = Color.gray
      · rw [if_pos hg] at h
        simp only [Option.some.injEq, Prod.mk.injEq] at h
        obtain ⟨hb, -, -⟩ := h
        cases hb
      · rw [if_neg hg] at h
        by_cases hw : c m = Color.white
        · rw [if_pos hw] at h
          cases hd : dfsF adj known fuel m c with
          | none => rw [hd] at h; cases h
          | some r1 =>
            obtain ⟨b1, c1, tr1⟩ := r1
            rw [hd] at h
            cases b1 with
            | false =>
              simp only [Option.some.injEq, Prod.mk.injEq] at h
              obtain ⟨hb, -, -⟩ := h
              cases hb
            | true =>
              dsimp only at h
              cases hrest : dfsNbrsGo known (dfsF adj known fuel) rest c1 with
              | none => rw [hrest] at h; cases h
              | some r2 =>
                obtain ⟨b2, c2, tr2⟩ := r2
                rw [hrest] at h
                simp only [Option.some.injEq, Prod.mk.injEq] at h
                obtain ⟨hb, hc, -⟩ := h
                subst hb
                obtain ⟨hstep1, hroot1⟩ := hF m c c1 tr1 hd hw
                obtain ⟨hstep2, hblack2⟩ := ih c1 c2 tr2 hrest
                rw [← hc]
                refine ⟨fun x => stepDone_trans (hstep1 x) (hstep2 x), ?_⟩
                intro m' hm' hkm'
                rcases List.mem_cons.mp hm' with rfl | hmem
                · have := hstep2 m'
                  rw [hroot1] at this
                  exact stepDone_black this
                · exact hblack2 m' hmem hkm'
        · rw [if_neg hw] at h
          have hb2 : c m = Color.black := by
            cases hcm : c m
            · exact absurd hcm hw
            · exact absurd hcm hg
            · rfl
          obtain ⟨hstep, hblack⟩ := ih c c' tr h
          refine ⟨hstep, ?_⟩
          intro m' hm' hkm'
          rcases List.mem_cons.mp hm' with rfl | hmem
          · have := hstep m'
            rw [hb2] at this
            exact stepDone_black this
          · exact hblack m' hmem hkm'

lemma dfsF_stepDone :
    ∀ fuel n c c' tr, dfsF adj known fuel n c = some (true, c', tr) →
      c n = Color.white →
      (∀ x, stepDone (c x) (c' x)) ∧ c' n = Color.black := by
  intro fuel
  induction fuel with
  | zero =>
    intro n c c' tr h
    rw [dfsF] at h
    cases h
  | succ fuel ih =>
    intro n c c' tr h hw
    rw [dfsF] at h
    cases hd : dfsNbrsGo known (dfsF adj known fuel) (adj n) (updateColor c n Color.gray) with
    | none => rw [hd] at h; cases h
    | some r1 =>
      obtain ⟨b1, c2, tr2⟩ := r1
      rw [hd] at h
      cases b1 with
      | false =>
        simp only [Option.some.injEq, Prod.mk.injEq] at h
        obtain ⟨hb, -, -⟩ := h
        cases hb
      | true =>
        simp only [Option.some.injEq, Prod.mk.injEq] at h
        obtain ⟨-, hc, -⟩ := h
        obtain ⟨hstep1, -⟩ :=
          dfsNbrs_stepDone adj known fuel (fun n' c'' => ih n' c'')
            (adj n) _ c2 tr2 hd
        rw [← hc]
        constructor
        · intro x
          by_cases hx : x = n
          · subst hx
            rw [updateColor_self, hw]
            exact Or.inr ⟨rfl, rfl⟩
          · rw [updateColor_of_ne _ _ _ hx]
            have hbase : updateColor c n Color.gray x = c x :=
              updateColor_of_ne _ _ _ hx
            have := hstep1 x
            rw [hbase] at this
            exact this
        · rw [updateColor_self]

lemma dfsAllF_stepDone (fuel : Nat) :
    ∀ l c c' tr, dfsAllF adj known fuel l c = some (true, c', tr) →
      ∀ x, stepDone (c x) (c' x) := by
  intro l
  induction l with
  | nil =>
    intro c c' tr h x
    rw [dfsAllF] at h
    simp only [Option.some.injEq, Prod.mk.injEq] at h
    obtain ⟨-, hc, -⟩ := h
    rw [← hc]
    exact stepDone_refl _
  | cons n rest ih =>
    intro c c' tr h x
    rw [dfsAllF] at h
    by_cases hw : c n = Color.white
    · rw [if_pos hw] at h
      cases hd : dfsF adj known fuel n c with
      | none => rw [hd] at h; cases h
      | some r1 =>
        obtain ⟨b1, c1, tr1⟩ := r1
        rw [hd] at h
        cases b1 with
        | false =>
          simp only [Option.some.injEq, Prod.mk.injEq] at h
          obtain ⟨hb, -, -⟩ := h
          cases hb
        | true =>
          dsimp only at h
          cases hrest : dfsAllF adj known fuel rest c1 with
          | none => rw [hrest] at h; cases h
          | some r2 =>
            obtain ⟨b2, c2, tr2⟩ := r2
            rw [hrest] at h
            simp only [Option.some.injEq, Prod.mk.injEq] at h
            obtain ⟨hb, hc, -⟩ := h
            subst hb
            rw [← hc]
            exact stepDone_trans
              ((dfsF_stepDone adj known fuel n c c1 tr1 hd hw).1 x)
              (ih c1 c2 tr2 hrest x)
    · rw [if_neg hw] at h
      exact ih c c' tr h x

lemma dfsNbrs_fuelSuff (fuel : Nat) {L : List String}
    (hF : ∀ n c, known n = true → c n = Color.white → wcount L c ≤ fuel →
      (dfsF adj known fuel n c).isSome) :
    ∀ l c, wcount L c ≤ fuel → (dfsNbrsGo known (dfsF adj known fuel) l c).isSome := by
  intro l
  induction l with
  | nil =>
    intro c hwc
    rw [dfsNbrsGo]
    rfl
  | cons m rest ih =>
    intro c hwc
    rw [dfsNbrsGo]
    by_cases hk : known m = false
    · rw [if_pos hk]
      exact ih c hwc
    · rw [if_neg hk]
      have hk' : known m = true := by
        cases hkm : known m
        · rw [hkm] at hk; cases hk rfl
        · rfl
      by_cases hg : c m = Color.gray
      · rw [if_pos hg]; rfl
      · rw [if_neg hg]
        by_cases hw : c m = Color.white
        · rw [if_pos hw]
          have hs := hF m c hk' hw hwc
          cases hd : dfsF adj known fuel m c with
          | none => rw [hd] at hs; cases hs
          | some r1 =>
            obtain ⟨b1, c1, tr1⟩ := r1
            cases b1 with
            | false => rfl
            | true =>
              dsimp only
              have hwc1 : wcount L c1 ≤ fuel := by
                refine le_trans (wcount_le_of_stepAny ?_) hwc
                exact dfsF_stepAny adj known fuel m c true c1 tr1 hd hw
              have hs2 := ih c1 hwc1
              cases hrest : dfsNbrsGo known (dfsF adj known fuel) rest c1 with
              | none => rw [hrest] at hs2; cases hs2
              | some r2 =>
                obtain ⟨b2, c2, tr2⟩ := r2
                rfl
        · rw [if_neg hw]
          exact ih c hwc

lemma dfsF_fuelSuff {L : List String} (hLd : L.Nodup)
    (hkL : ∀ x, known x = true → x ∈ L) :
    ∀ fuel n c, known n = true → c n = Color.white → wcount L c ≤ fuel →
      (dfsF adj known fuel n c).isSome := by
  intro fuel
  induction fuel with
  | zero =>
    intro n c hk hw hwc
    have := wcount_pos (hkL n hk) hw
    omega
  | succ fuel ih =>
    intro n c hk hw hwc
    rw [dfsF]
    have hwc1 : wcount L (updateColor c n Color.gray) ≤ fuel := by
      have := wcount_update_gray hLd (hkL n hk) hw
      omega
    have hs := dfsNbrs_fuelSuff adj known fuel ih (adj n)
      (updateColor c n Color.gray) hwc1
    cases hd : dfsNbrsGo known (dfsF adj known fuel) (adj n) (updateColor c n Color.gray) with
    | none => rw [hd] at hs; cases hs
    | some r1 =>
      obtain ⟨b1, c1, tr1⟩ := r1
      cases b1 with
      | false => rfl
      | true => rfl

lemma dfsAllF_fuelSuff {L : List String} (hLd : L.Nodup)
    (hkL : ∀ x, known x = true → x ∈ L) (fuel : Nat) :
    ∀ l c, (∀ n ∈ l, known n = true) → wcount L c ≤ fuel →
      (dfsAllF adj known fuel l c).isSome := by
  intro l
  induction l with
  | nil =>
    intro c _ _
    rw [dfsAllF]
    rfl
  | cons n rest ih =>
    intro c hkl hwc
    rw [dfsAllF]
    by_cases hw : c n = Color.white
    · rw [if_pos hw]
      have hs := dfsF_fuelSuff adj known hLd hkL fuel n c
        (hkl n (List.mem_cons_self n rest)) hw hwc
      cases hd : dfsF adj known fuel n c with
      | none => rw [hd] at hs; cases hs
      | some r1 =>
        obtain ⟨b1, c1, tr1⟩ := r1
        cases b1 with
        | false => rfl
        | true =>
          dsimp only
          have hwc1 : wcount L c1 ≤ fuel := by
            refine le_trans (wcount_le_of_stepAny ?_) hwc
            exact dfsF_stepAny adj known fuel n c true c1 tr1 hd hw
          have hs2 := ih c1 (fun n' hn' => hkl n' (List.mem_cons_of_mem n hn')) hwc1
          cases hrest : dfsAllF adj known fuel rest c1 with
          | none => rw [hrest] at hs2; cases hs2
          | some r2 =>
            obtain ⟨b2, c2, tr2⟩ := r2
            rfl
    · rw [if_neg hw]
      exact ih c (fun n' hn' => hkl n' (List.mem_cons_of_mem n hn')) hwc

lemma stepDone_gray_rev {a b : Color} (h : stepDone a b)
    (hb : b = Color.gray) : a = Color.gray := by
  rcases h with h | ⟨ha, hb'⟩
  · rw [← h, hb]
  · rw [hb] at hb'; cases hb'

lemma dfsNbrs_sound (fuel : Nat) {E : String → String → Prop}
    (hF : ∀ n c c' tr, dfsF adj known fuel n c = some (false, c', tr) →
      c n = Color.white →
      (∀ x, c x = Color.gray → Relation.ReflTransGen E x n) →
      ∃ z, Relation.TransGen E z z) :
    ∀ l c c' tr (n : String),
      dfsNbrsGo known (dfsF adj known fuel) l c = some (false, c', tr) →
      (∀ m ∈ l, known m = true → E n m) →
      (∀ x, c x = Color.gray → Relation.ReflTransGen E x n) →
      ∃ z, Relation.TransGen E z z := by
  intro l
  induction l with
  | nil =>
    intro c c' tr n h
    rw [dfsNbrsGo] at h
    simp only [Option.some.injEq, Prod.mk.injEq] at h
    obtain ⟨hb, -, -⟩ := h
    cases hb
  | cons m rest ih =>
    intro c c' tr n h hl hgray
    rw [dfsNbrsGo] at h
    by_cases hk : known m = false
    · rw [if_pos hk] at h
      exact ih c c' tr n h (fun m' hm' => hl m' (List.mem_cons_of_mem m hm')) hgray
    · rw [if_neg hk] at h
      have hk' : known m = true := by
        cases hkm : known m
        · rw [hkm] at hk; cases hk rfl
        · rfl
      by_cases hg : c m = Color.gray
      · refine ⟨m, Relation.TransGen.tail' (hgray m hg) ?_⟩
        exact hl m (List.mem_cons_self m rest) hk'
      · rw [if_neg hg] at h
        by_cases hw : c m = Color.white
        · rw [if_pos hw] at h
          cases hd : dfsF adj known fuel m c with
          | none => rw [hd] at h; cases h
          | some r1 =>
            obtain ⟨b1, c1, tr1⟩ := r1
            rw [hd] at h
            cases b1 with
            | false =>
              refine hF m c c1 tr1 hd hw ?_
              intro x hx
              exact Relation.ReflTransGen.tail (hgray x hx)
                (hl m (List.mem_cons_self m rest) hk')
            | true =>
              dsimp only at h
              cases hrest : dfsNbrsGo known (dfsF adj known fuel) rest c1 with
              | none => rw [hrest] at h; cases h
              | some r2 =>
                obtain ⟨b2, c2, tr2⟩ := r2
                rw [hrest] at h
                simp only [Option.some.injEq, Prod.mk.injEq] at h
                obtain ⟨hb, hc, -⟩ := h
                subst hb
                refine ih c1 c2 tr2 n hrest
                  (fun m' hm' => hl m' (List.mem_cons_of_mem m hm')) ?_
                intro x hx
                refine hgray x ?_
                exact stepDone_gray_rev
                  ((dfsF_stepDone adj known fuel m c c1 tr1 hd hw).1 x) hx
        · rw [if_neg hw] at h
          exact ih c c' tr n h
            (fun m' hm' => hl m' (List.mem_cons_of_mem m hm')) hgray

lemma dfsF_sound {E : String → String → Prop}
    (Hadj : ∀ n m, m ∈ adj n → known m = true → E n m) :
    ∀ fuel n c c' tr, dfsF adj known fuel n c = some (false, c', tr) →
      c n = Color.white →
      (∀ x, c x = Color.gray → Relation.ReflTransGen E x n) →
      ∃ z, Relation.TransGen E z z := by
  intro fuel
  induction fuel with
  | zero =>
    intro n c c' tr h
    rw [dfsF] at h
    cases h
  | succ fuel ih =>
    intro n c c' tr h hw hgray
    rw [dfsF] at h
    cases hd : dfsNbrsGo known (dfsF adj known fuel) (adj n) (updateColor c n Color.gray) with
    | none => rw [hd] at h; cases h
    | some r1 =>
      obtain ⟨b1, c2, tr2⟩ := r1
      rw [hd] at h
      cases b1 with
      | true =>
        simp only [Option.some.injEq, Prod.mk.injEq] at h
        obtain ⟨hb, -, -⟩ := h
        cases hb
      | false =>
        refine dfsNbrs_sound adj known fuel ih (adj n) _ c2 tr2 n hd
          (fun m hm hkm => Hadj n m hm hkm) ?_
        intro x hx
        by_cases hxn : x = n
        · subst hxn
          exact Relation.ReflTransGen.refl
        · rw [updateColor_of_ne _ _ _ hxn] at hx
          exact hgray x hx

lemma dfsAllF_sound {E : String → String → Prop}
    (Hadj : ∀ n m, m ∈ adj n → known m = true → E n m) (fuel : Nat) :
    ∀ l c c' tr, dfsAllF adj known fuel l c = some (false, c', tr) →
      (∀ x, c x ≠ Color.gray) →
      ∃ z, Relation.TransGen E z z := by
  intro l
  induction l with
  | nil =>
    intro c c' tr h
    rw [dfsAllF] at h
    simp only [Option.some.injEq, Prod.mk.injEq] at h
    obtain ⟨hb, -, -⟩ := h
    cases hb
  | cons n rest ih =>
    intro c c' tr h hnog
    rw [dfsAllF] at h
    by_cases hw : c n = Color.white
    · rw [if_pos hw] at h
      cases hd : dfsF adj known fuel n c with
      | none => rw [hd] at h; cases h
      | some r1 =>
        obtain ⟨b1, c1, tr1⟩ := r1
        rw [hd] at h
        cases b1 with
        | false =>
          refine dfsF_sound adj known Hadj fuel n c c1 tr1 hd hw ?_
          intro x hx
          exact absurd hx (hnog x)
        | true =>
          dsimp only at h
          cases hrest : dfsAllF adj known fuel rest c1 with
          | none => rw [hrest] at h; cases h
          | some r2 =>
            obtain ⟨b2, c2, tr2⟩ := r2
            rw [hrest] at h
            simp only [Option.some.injEq, Prod.mk.injEq] at h
            obtain ⟨hb, hc, -⟩ := h
            subst hb
            refine ih c1 c2 tr2 hrest ?_
            intro x hx
            refine hnog x ?_
            exact stepDone_gray_rev
              ((dfsF_stepDone adj known fuel n c c1 tr1 hd hw).1 x) hx
    · rw [if_neg hw] at h
      exact ih c c' tr h hnog

end ShapeLemmas

/-- Completeness invariant of the detection pass: every `BLACK` node is a
known node, and there is a rank function that strictly decreases along every
effective edge leaving a `BLACK` node, with the edge's target already
`BLACK`.  A node is only colored `BLACK` after all its effective successors
are, so the invariant is preserved; at the end it forbids any cycle among
`BLACK` (hence any known) nodes. -/
def detectInv (L : List String)
    (E : String → String → Prop) (c : CMap) : Prop :=
  (∀ x, c x = Color.black → x ∈ L) ∧
  ∃ rk : String → Nat, ∀ x y, E x y → c x = Color.black →
    c y = Color.black ∧ rk y < rk x

/-- Maximum of a rank function over a list of identifiers. -/
def listMaxOf (rk : String → Nat) (L : List String) : Nat :=
  L.foldr (fun a b => max (rk a) b) 0

lemma le_listMaxOf (rk : String → Nat) {L : List String} {x : String}
    (hx : x ∈ L) : rk x ≤ listMaxOf rk L := by
  induction L with
  | nil => cases hx
  | cons a L ih =>
    rcases List.mem_cons.mp hx with rfl | hmem
    · exact le_max_left _ _
    · exact le_trans (ih hmem) (le_max_right _ _)

section InvLemmas

variable (adj : String → List String) (known : String → Bool)

lemma dfsNbrs_inv (fuel : Nat) {L : List String} {E : String → String → Prop}
    (hF : ∀ n c c' tr, dfsF adj known fuel n c = some (true, c', tr) →
      c n = Color.white → known n = true →
      detectInv L E c → detectInv L E c') :
    ∀ l c c' tr, dfsNbrsGo known (dfsF adj known fuel) l c = some (true, c', tr) →
      detectInv L E c → detectInv L E c' := by
  intro l
  induction l with
  | nil =>
    intro c c' tr h hinv
    rw [dfsNbrsGo] at h
    simp only [Option.some.injEq, Prod.mk.injEq] at h
    obtain ⟨-, hc, -⟩ := h
    rw [← hc]
    exact hinv
  | cons m rest ih =>
    intro c c' tr h hinv
    rw [dfsNbrsGo] at h
    by_cases hk : known m = false
    · rw [if_pos hk] at h
      exact ih c c' tr h hinv
    · rw [if_neg hk] at h
      have hk' : known m = true := by
        cases hkm : known m
        · rw [hkm] at hk; cases hk rfl
        · rfl
      by_cases hg : c m = Color.gray
      · rw [if_pos hg] at h
        simp only [Option.some.injEq, Prod.mk.injEq] at h
        obtain ⟨hb, -, -⟩ := h
        cases hb
      · rw [if_neg hg] at h
        by_cases hw : c m = Color.white
        · rw [if_pos hw] at h
          cases hd : dfsF adj known fuel m c with
          | none => rw [hd] at h; cases h
          | some r1 =>
            obtain ⟨b1, c1, tr1⟩ := r1
            rw [hd] at h
            cases b1 with
            | false =>
              simp only [Option.some.injEq, Prod.mk.injEq] at h
              obtain ⟨hb, -, -⟩ := h
              cases hb
            | true =>
              dsimp only at h
              cases hrest : dfsNbrsGo known (dfsF adj known fuel) rest c1 with
              | none => rw [hrest] at h; cases h
              | some r2 =>
                obtain ⟨b2, c2, tr2⟩ := r2
                rw [hrest] at h
                simp only [Option.some.injEq, Prod.mk.injEq] at h
                obtain ⟨hb, hc, -⟩ := h
                subst hb
                rw [← hc]
                exact ih c1 c2 tr2 hrest (hF m c c1 tr1 hd hw hk' hinv)
        · rw [if_neg hw] at h
          exact ih c c' tr h hinv

lemma dfsF_inv {L : List String} {E : String → String → Prop}
    (HE : ∀ a b, E a b → known a = true ∧ known b = true)
    (Hadj2 : ∀ a b, E a b → b ∈ adj a)
    (hkL : ∀ x, known x = true → x ∈ L) :
    ∀ fuel n c c' tr, dfsF adj known fuel n c = some (true, c', tr) →
      c n = Color.white → known n = true →
      detectInv L E c → detectInv L E c' := by
  intro fuel
  induction fuel with
  | zero =>
    intro n c c' tr h
    rw [dfsF] at h
    cases h
  | succ fuel ih =>
    intro n c c' tr h hw hk hinv
    rw [dfsF] at h
    cases hd : dfsNbrsGo known (dfsF adj known fuel) (adj n) (updateColor c n Color.gray) with
    | none => rw [hd] at h; cases h
    | some r1 =>
      obtain ⟨b1, c2, tr2⟩ := r1
      rw [hd] at h
      cases b1 with
      | false =>
        simp only [Option.some.injEq, Prod.mk.injEq] at h
        obtain ⟨hb, -, -⟩ := h
        cases hb
      | true =>
        simp only [Option.some.injEq, Prod.mk.injEq] at h
        obtain ⟨-, hc, -⟩ := h
        -- invariant survives coloring `n` GRAY
        have hinv1 : detectInv L E (updateColor c n Color.gray) := by
          obtain ⟨hbl, rk, hrk⟩ := hinv
          constructor
          · intro x hx
            by_cases hxn : x = n
            · subst hxn; rw [updateColor_self] at hx; cases hx
            · rw [updateColor_of_ne _ _ _ hxn] at hx
              exact hbl x hx
          · refine ⟨rk, ?_⟩
            intro x y hxy hx
            by_cases hxn : x = n
            · subst hxn; rw [updateColor_self] at hx; cases hx
            · rw [updateColor_of_ne _ _ _ hxn] at hx
              obtain ⟨hyb, hlt⟩ := hrk x y hxy hx
              have hyn : y ≠ n := by
                intro hyn; subst hyn; rw [hyb] at hw; cases hw
              rw [updateColor_of_ne _ _ _ hyn]
              exact ⟨hyb, hlt⟩
        have hinv2 : detectInv L E c2 :=
          dfsNbrs_inv adj known fuel
            (fun n' c'' c''' tr'' hd' hw' hk' => ih n' c'' c''' tr'' hd' hw' hk')
            (adj n) _ c2 tr2 hd hinv1
        obtain ⟨hstep12, hblacknbrs⟩ :=
          dfsNbrs_stepDone adj known fuel
            (fun n' c'' c''' tr'' hd' hw' =>
              dfsF_stepDone adj known fuel n' c'' c''' tr'' hd' hw')
            (adj n) _ c2 tr2 hd
        have hc2n : c2 n = Color.gray := by
          have := hstep12 n
          rw [updateColor_self] at this
          exact stepDone_gray this
        obtain ⟨hbl2, rk, hrk2⟩ := hinv2
        rw [← hc]
        constructor
        · intro x hx
          by_cases hxn : x = n
          · rw [hxn]; exact hkL n hk
          · rw [updateColor_of_ne _ _ _ hxn] at hx
            exact hbl2 x hx
        · refine ⟨fun y => if y = n then listMaxOf rk L + 1 else rk y, ?_⟩
          intro x y hxy hx
          by_cases hxn : x = n
          · have hxy' : E n y := hxn ▸ hxy
            have hky : known y = true := (HE n y hxy').2
            have hc2y : c2 y = Color.black :=
              hblacknbrs y (Hadj2 n y hxy') hky
            have hyn : y ≠ n := by
              intro hyn
              rw [hyn] at hc2y
              rw [hc2y] at hc2n
              cases hc2n
            constructor
            · rw [updateColor_of_ne _ _ _ hyn]
              exact hc2y
            · simp only [if_neg hyn, if_pos hxn]
              exact Nat.lt_succ_of_le (le_listMaxOf rk (hkL y hky))
          · rw [updateColor_of_ne _ _ _ hxn] at hx
            obtain ⟨hyb, hlt⟩ := hrk2 x y hxy hx
            have hyn : y ≠ n := by
              intro hyn
              rw [hyn] at hyb
              rw [hyb] at hc2n
              cases hc2n
            constructor
            · rw [updateColor_of_ne _ _ _ hyn]
              exact hyb
            · simp only [if_neg hyn, if_neg hxn]
              exact hlt

lemma dfsAllF_inv {L : List String} {E : String → String → Prop}
    (HE : ∀ a b, E a b → known a = true ∧ known b = true)
    (Hadj2 : ∀ a b, E a b → b ∈ adj a)
    (hkL : ∀ x, known x = true → x ∈ L) (fuel : Nat) :
    ∀ l c c' tr, dfsAllF adj known fuel l c = some (true, c', tr) →
      (∀ n ∈ l, known n = true) →
      detectInv L E c → detectInv L E c' := by
  intro l
  induction l with
  | nil =>
    intro c c' tr h _ hinv
    rw [dfsAllF] at h
    simp only [Option.some.injEq, Prod.mk.injEq] at h
    obtain ⟨-, hc, -⟩ := h
    rw [← hc]
    exact hinv
  | cons n rest ih =>
    intro c c' tr h hkl hinv
    rw [dfsAllF] at h
    by_cases hw : c n = Color.white
    · rw [if_pos hw] at h
      cases hd : dfsF adj known fuel n c with
      | none => rw [hd] at h; cases h
      | some r1 =>
        obtain ⟨b1, c1, tr1⟩ := r1
        rw [hd] at h
        cases b1 with
        | false =>
          simp only [Option.some.injEq, Prod.mk.injEq] at h
          obtain ⟨hb, -, -⟩ := h
          cases hb
        | true =>
          dsimp only at h
          cases hrest : dfsAllF adj known fuel rest c1 with
          | none => rw [hrest] at h; cases h
          | some r2 =>
            obtain ⟨b2, c2, tr2⟩ := r2
            rw [hrest] at h
            simp only [Option.some.injEq, Prod.mk.injEq] at h
            obtain ⟨hb, hc, -⟩ := h
            subst hb
            rw [← hc]
            refine ih c1 c2 tr2 hrest
              (fun n' hn' => hkl n' (List.mem_cons_of_mem n hn')) ?_
            exact dfsF_inv adj known HE Hadj2 hkL fuel n c c1 tr1 hd hw
              (hkl n (List.mem_cons_self n rest)) hinv
    · rw [if_neg hw] at h
      exact ih c c' tr h (fun n' hn' => hkl n' (List.mem_cons_of_mem n hn')) hinv

lemma dfsAllF_black (fuel : Nat) :
    ∀ l c c' tr, dfsAllF adj known fuel l c = some (true, c', tr) →
      (∀ x, c x ≠ Color.gray) → ∀ n ∈ l, c' n = Color.black := by
  intro l
  induction l with
  | nil =>
    intro c c' tr h _ n hn
    cases hn
  | cons n rest ih =>
    intro c c' tr h hnog n' hn'
    rw [dfsAllF] at h
    by_cases hw : c n = Color.white
    · rw [if_pos hw] at h
      cases hd : dfsF adj known fuel n c with
      | none => rw [hd] at h; cases h
      | some r1 =>
        obtain ⟨b1, c1, tr1⟩ := r1
        rw [hd] at h
        cases b1 with
        | false =>
          simp only [Option.some.injEq, Prod.mk.injEq] at h
          obtain ⟨hb, -, -⟩ := h
          cases hb
        | true =>
          dsimp only at h
          cases hrest : dfsAllF adj known fuel rest c1 with
          | none => rw [hrest] at h; cases h
          | some r2 =>
            obtain ⟨b2, c2, tr2⟩ := r2
            rw [hrest] at h
            simp only [Option.some.injEq, Prod.mk.injEq] at h
            obtain ⟨hb, hc, -⟩ := h
            subst hb
            have hnog1 : ∀ x, c1 x ≠ Color.gray := by
              intro x hx
              refine hnog x ?_
              exact stepDone_gray_rev
                ((dfsF_stepDone adj known fuel n c c1 tr1 hd hw).1 x) hx
            rcases List.mem_cons.mp hn' with rfl | hmem
            · have hroot : c1 n' = Color.black :=
                (dfsF_stepDone adj known fuel n' c c1 tr1 hd hw).2
              have := dfsAllF_stepDone adj known fuel rest c1 c2 tr2 hrest n'
              rw [hroot] at this
              rw [← hc]
              exact stepDone_black this
            · rw [← hc]
              exact ih c1 c2 tr2 hrest hnog1 n' hmem
    · rw [if_neg hw] at h
      have hb : c n = Color.black := by
        cases hcn : c n
        · exact absurd hcn hw
        · exact absurd hcn (hnog n)
        · rfl
      rcases List.mem_cons.mp hn' with rfl | hmem
      · have := dfsAllF_stepDone adj known fuel rest c c' tr h n'
        rw [hb] at this
        exact stepDone_black this
      · exact ih c c' tr h hnog n' hmem

end InvLemmas

lemma knownOf_eq_true {L : List String} {s : String} :
    knownOf L s = true ↔ s ∈ L := by
  simp [knownOf]

lemma mem_adjOf {es : List (String × String)} {L : List String}
    {n m : String} : m ∈ adjOf L es n ↔ n ∈ L ∧ (n, m) ∈ es := by
  constructor
  · intro h
    rw [adjOf] at h
    by_cases hn : n ∈ L
    · rw [if_pos hn] at h
      simp only [List.mem_map, List.mem_filter] at h
      obtain ⟨e, ⟨he, heq⟩, hsnd⟩ := h
      have h1 : e.1 = n := by simpa using heq
      refine ⟨hn, ?_⟩
      have : e = (n, m) := by
        cases e
        simp only [Prod.mk.injEq]
        exact ⟨h1, hsnd⟩
      rw [← this]
      exact he
    · rw [if_neg hn] at h
      cases h
  · rintro ⟨hn, hmem⟩
    rw [adjOf, if_pos hn]
    simp only [List.mem_map, List.mem_filter]
    exact ⟨(n, m), ⟨hmem, by simp⟩, rfl⟩

lemma wcount_init (L : List String) :
    wcount L (fun _ => Color.white) = L.length := by
  simp [wcount]

lemma transGen_exists_head {r : String → String → Prop} {a b : String}
    (h : Relation.TransGen r a b) : ∃ c, r a c := by
  induction h with
  | single h1 => exact ⟨_, h1⟩
  | tail _ _ ih => exact ih

/-- The detection pass always yields a result, and its boolean is `true`
exactly when the effective graph has no directed cycle. -/
lemma runDetect_spec (ids : List String) (es : List (String × String)) :
    ∃ b cF tr, runDetect ids es = some (b, cF, tr) ∧
      (b = true ↔ ¬ hasCycle ids es) := by
  have hLd : ids.dedup.Nodup := ids.nodup_dedup
  have hkL : ∀ x, knownOf ids.dedup x = true → x ∈ ids.dedup :=
    fun x hx => knownOf_eq_true.mp hx
  have hLk : ∀ n ∈ ids.dedup, knownOf ids.dedup n = true :=
    fun n hn => knownOf_eq_true.mpr hn
  have hnog0 : ∀ x : String, (fun _ : String => Color.white) x ≠ Color.gray :=
    fun _ h => Color.noConfusion h
  have Hadj : ∀ n m, m ∈ adjOf ids.dedup es n →
      knownOf ids.dedup m = true → edgeRel ids es n m := by
    intro n m hm hk
    obtain ⟨hn, hmem⟩ := mem_adjOf.mp hm
    exact ⟨hmem, List.mem_dedup.mp hn, List.mem_dedup.mp (hkL m hk)⟩
  have HE : ∀ a b, edgeRel ids es a b →
      knownOf ids.dedup a = true ∧ knownOf ids.dedup b = true := by
    rintro a b ⟨-, ha, hb⟩
    exact ⟨knownOf_eq_true.mpr (List.mem_dedup.mpr ha),
      knownOf_eq_true.mpr (List.mem_dedup.mpr hb)⟩
  have Hadj2 : ∀ a b, edgeRel ids es a b → b ∈ adjOf ids.dedup es a := by
    rintro a b ⟨hmem, ha, -⟩
    exact mem_adjOf.mpr ⟨List.mem_dedup.mpr ha, hmem⟩
  have hsome : (dfsAllF (adjOf ids.dedup es) (knownOf ids.dedup)
      ids.dedup.length ids.dedup (fun _ => Color.white)).isSome := by
    refine dfsAllF_fuelSuff _ _ hLd hkL ids.dedup.length ids.dedup _ hLk ?_
    rw [wcount_init]
  obtain ⟨⟨b, cF, tr⟩, heq⟩ := Option.isSome_iff_exists.mp hsome
  refine ⟨b, cF, tr, heq, ?_⟩
  constructor
  · intro hb hcyc
    subst hb
    obtain ⟨z, hz⟩ := hcyc
    have hinvF := dfsAllF_inv (adjOf ids.dedup es) (knownOf ids.dedup)
      HE Hadj2 hkL ids.dedup.length ids.dedup _ cF tr heq hLk
      ⟨fun x hx => Color.noConfusion hx,
        ⟨fun _ => 0, fun x y _ hx => Color.noConfusion hx⟩⟩
    have hblackF := dfsAllF_black (adjOf ids.dedup es) (knownOf ids.dedup)
      ids.dedup.length ids.dedup _ cF tr heq hnog0
    obtain ⟨-, rk, hrk⟩ := hinvF
    obtain ⟨w, hzw⟩ := transGen_exists_head hz
    have hzb : cF z = Color.black :=
      hblackF z (List.mem_dedup.mpr hzw.2.1)
    have hdesc : ∀ p q, Relation.TransGen (edgeRel ids es) p q →
        cF p = Color.black → cF q = Color.black ∧ rk q < rk p := by
      intro p q h
      induction h with
      | single h1 => exact fun hp => hrk _ _ h1 hp
      | tail _ h2 ih =>
        intro hp
        obtain ⟨hb1, hl1⟩ := ih hp
        obtain ⟨hb2, hl2⟩ := hrk _ _ h2 hb1
        exact ⟨hb2, lt_trans hl2 hl1⟩
    exact absurd (hdesc z z hz hzb).2 (lt_irrefl _)
  · intro hnc
    cases hbv : b with
    | true => rfl
    | false =>
      rw [hbv] at heq
      exact absurd (dfsAllF_sound (adjOf ids.dedup es) (knownOf ids.dedup)
        Hadj ids.dedup.length ids.dedup _ cF tr heq hnog0) hnc

lemma hasCycle_nil (es : List (String × String)) : ¬ hasCycle [] es := by
  rintro ⟨z, hz⟩
  obtain ⟨w, hzw⟩ := transGen_exists_head hz
  exact absurd hzw.2.1 (List.not_mem_nil z)

/-- `is_dag` is `true` exactly when the effective graph is acyclic. -/
lemma is_dag_true_iff {π δ : Type} (nodes : List (Node π δ))
    (edges : List Edge) :
    is_dag nodes edges = true ↔
      ¬ hasCycle (nodes.map Node.id)
        (edges.map fun e => (e.source, e.target)) := by
  by_cases hempty : nodes.isEmpty
  · rw [is_dag, if_pos hempty]
    have hnil : nodes = [] := List.isEmpty_iff.mp hempty
    subst hnil
    simpa using hasCycle_nil (edges.map fun e => (e.source, e.target))
  · rw [is_dag, if_neg hempty]
    obtain ⟨b, cF, tr, heq, hiff⟩ := runDetect_spec (nodes.map Node.id)
      (edges.map fun e => (e.source, e.target))
    rw [heq]
    exact hiff

lemma bool_eq_of_iff {a b : Bool} (h : a = true ↔ b = true) : a = b := by
  cases a <;> cases b <;> simp_all

/-- Cycle existence only depends on identifier membership and pair
membership, not on order or multiplicity. -/
lemma hasCycle_congr {ids₁ ids₂ : List String}
    {es₁ es₂ : List (String × String)}
    (hi : ∀ x, x ∈ ids₁ ↔ x ∈ ids₂) (he : ∀ p, p ∈ es₁ ↔ p ∈ es₂) :
    hasCycle ids₁ es₁ ↔ hasCycle ids₂ es₂ := by
  have hrel : ∀ x y, edgeRel ids₁ es₁ x y ↔ edgeRel ids₂ es₂ x y := by
    intro x y
    rw [edgeRel, edgeRel, hi, hi, he]
  constructor
  · rintro ⟨z, hz⟩
    exact ⟨z, hz.mono (fun a b hab => (hrel a b).mp hab)⟩
  · rintro ⟨z, hz⟩
    exact ⟨z, hz.mono (fun a b hab => (hrel a b).mpr hab)⟩

/-- Cycle existence is monotone in the edge list. -/
lemma hasCycle_mono {ids : List String} {es₁ es₂ : List (String × String)}
    (he : ∀ p, p ∈ es₁ → p ∈ es₂) (h : hasCycle ids es₁) :
    hasCycle ids es₂ := by
  obtain ⟨z, hz⟩ := h
  exact ⟨z, hz.mono (fun a b hab => ⟨he _ hab.1, hab.2.1, hab.2.2⟩)⟩

lemma replay_nil (c : CMap) : replay c [] = c := rfl

lemma replay_cons (c : CMap) (x : String) (v : Color) (tr : Trace) :
    replay c ((x, v) :: tr) = replay (updateColor c x v) tr := rfl

lemma replay_append (c : CMap) (t1 t2 : Trace) :
    replay c (t1 ++ t2) = replay (replay c t1) t2 := by
  simp [replay]

lemma validTrace_cons (c : CMap) (x : String) (v : Color) (tr : Trace) :
    validTrace c ((x, v) :: tr) =
      (validWrite c x v && validTrace (updateColor c x v) tr) := by
  rw [validTrace]

lemma validTrace_append (c : CMap) (t1 t2 : Trace) :
    validTrace c (t1 ++ t2) =
      (validTrace c t1 && validTrace (replay c t1) t2) := by
  induction t1 generalizing c with
  | nil => simp [validTrace, replay]
  | cons p t1 ih =>
    obtain ⟨x, v⟩ := p
    rw [List.cons_append, validTrace_cons, validTrace_cons, ih, replay_cons,
      Bool.and_assoc]

lemma grayWrites_nil (x : String) : grayWrites x [] = 0 := rfl

lemma grayWrites_cons_pos {x y : String} {v : Color} (tr : Trace)
    (h1 : y = x) (h2 : v = Color.gray) :
    grayWrites x ((y, v) :: tr) = grayWrites x tr + 1 := by
  subst h1; subst h2
  simp [grayWrites, List.filter_cons]

lemma grayWrites_cons_neg {x y : String} {v : Color} (tr : Trace)
    (h : ¬(y = x ∧ v = Color.gray)) :
    grayWrites x ((y, v) :: tr) = grayWrites x tr := by
  have hb : (y == x && v == Color.gray) = false := by
    rcases Decidable.em (y = x) with hyx | hyx
    · rcases Decidable.em (v = Color.gray) with hv | hv
      · exact absurd ⟨hyx, hv⟩ h
      · simp [hv]
    · simp [hyx]
  simp [grayWrites, List.filter_cons, hb]

lemma validTrace_gray_zero :
    ∀ (tr : Trace) (c : CMap) (x : String), validTrace c tr = true →
      c x ≠ Color.white → grayWrites x tr = 0 := by
  intro tr
  induction tr with
  | nil => intro c x _ _; rfl
  | cons p tr ih =>
    intro c x h hx
    obtain ⟨y, v⟩ := p
    rw [validTrace_cons, Bool.and_eq_true] at h
    obtain ⟨h1, h2⟩ := h
    cases v with
    | white => simp [validWrite] at h1
    | gray =>
      have hcy : c y = Color.white := of_decide_eq_true h1
      have hyx : y ≠ x := by
        intro hyx; rw [hyx] at hcy; exact hx hcy
      rw [grayWrites_cons_neg tr (fun hp => hyx hp.1)]
      refine ih _ x h2 ?_
      rw [updateColor_of_ne _ _ _ (fun hxy => hyx hxy.symm)]
      exact hx
    | black =>
      rw [grayWrites_cons_neg tr (fun hp => Color.noConfusion hp.2)]
      refine ih _ x h2 ?_
      by_cases hyx : x = y
      · rw [hyx, updateColor_self]
        intro hb; cases hb
      · rw [updateColor_of_ne _ _ _ hyx]
        exact hx

lemma validTrace_gray_le_one :
    ∀ (tr : Trace) (c : CMap) (x : String), validTrace c tr = true →
      grayWrites x tr ≤ 1 := by
  intro tr
  induction tr with
  | nil => intro c x _; exact Nat.zero_le 1
  | cons p tr ih =>
    intro c x h
    obtain ⟨y, v⟩ := p
    rw [validTrace_cons, Bool.and_eq_true] at h
    obtain ⟨h1, h2⟩ := h
    cases v with
    | white => simp [validWrite] at h1
    | gray =>
      by_cases hyx : y = x
      · rw [grayWrites_cons_pos tr hyx rfl]
        have hz : grayWrites x tr = 0 := by
          refine validTrace_gray_zero tr _ x h2 ?_
          rw [← hyx, updateColor_self]
          intro hw; cases hw
        omega
      · rw [grayWrites_cons_neg tr (fun hp => hyx hp.1)]
        exact ih _ x h2
    | black =>
      rw [grayWrites_cons_neg tr (fun hp => Color.noConfusion hp.2)]
      exact ih _ x h2

lemma validTrace_black_stable :
    ∀ (tr : Trace) (c : CMap) (x : String), validTrace c tr = true →
      c x = Color.black → ∀ p ∈ tr, p.1 ≠ x := by
  intro tr
  induction tr with
  | nil => intro c x _ _ p hp; cases hp
  | cons q tr ih =>
    intro c x h hx p hp
    obtain ⟨y, v⟩ := q
    rw [validTrace_cons, Bool.and_eq_true] at h
    obtain ⟨h1, h2⟩ := h
    have hyx : y ≠ x := by
      intro hyx
      cases v with
      | white => simp [validWrite] at h1
      | gray =>
        have hcw : c y = Color.white := of_decide_eq_true h1
        rw [hyx, hx] at hcw
        cases hcw
      | black =>
        have hcg : c y = Color.gray := of_decide_eq_true h1
        rw [hyx, hx] at hcg
        cases hcg
    rcases List.mem_cons.mp hp with rfl | hmem
    · exact hyx
    · refine ih _ x h2 ?_ p hmem
      rw [updateColor_of_ne _ _ _ (fun hxy => hyx hxy.symm)]
      exact hx

section TraceLemmas

variable (adj : String → List String) (known : String → Bool)

lemma dfsNbrsGo_trace (fuel : Nat)
    (hF : ∀ n c b cc tr, dfsF adj known fuel n c = some (b, cc, tr) →
      c n = Color.white → validTrace c tr = true ∧ replay c tr = cc) :
    ∀ l c b cc tr, dfsNbrsGo known (dfsF adj known fuel) l c = some (b, cc, tr) →
      validTrace c tr = true ∧ replay c tr = cc := by
  intro l
  induction l with
  | nil =>
    intro c b cc tr h
    rw [dfsNbrsGo] at h
    simp only [Option.some.injEq, Prod.mk.injEq] at h
    obtain ⟨-, hc, htr⟩ := h
    rw [← hc, ← htr]
    exact ⟨rfl, rfl⟩
  | cons m rest ih =>
    intro c b cc tr h
    rw [dfsNbrsGo] at h
    by_cases hk : known m = false
    · rw [if_pos hk] at h
      exact ih c b cc tr h
    · rw [if_neg hk] at h
      by_cases hg : c m = Color.gray
      · rw [if_pos hg] at h
        simp only [Option.some.injEq, Prod.mk.injEq] at h
        obtain ⟨-, hc, htr⟩ := h
        rw [← hc, ← htr]
        exact ⟨rfl, rfl⟩
      · rw [if_neg hg] at h
        by_cases hw : c m = Color.white
        · rw [if_pos hw] at h
          cases hd : dfsF adj known fuel m c with
          | none => rw [hd] at h; cases h
          | some r1 =>
            obtain ⟨b1, c1, tr1⟩ := r1
            rw [hd] at h
            cases b1 with
            | false =>
              simp only [Option.some.injEq, Prod.mk.injEq] at h
              obtain ⟨-, hc, htr⟩ := h
              rw [← hc, ← htr]
              exact hF m c false c1 tr1 hd hw
            | true =>
              dsimp only at h
              cases hrest : dfsNbrsGo known (dfsF adj known fuel) rest c1 with
              | none => rw [hrest] at h; cases h
              | some r2 =>
                obtain ⟨b2, c2, tr2⟩ := r2
                rw [hrest] at h
                simp only [Option.some.injEq, Prod.mk.injEq] at h
                obtain ⟨-, hc, htr⟩ := h
                obtain ⟨hv1, hr1⟩ := hF m c true c1 tr1 hd hw
                obtain ⟨hv2, hr2⟩ := ih c1 b2 c2 tr2 hrest
                rw [← hc, ← htr]
                constructor
                · rw [validTrace_append, hv1, hr1, hv2]
                  rfl
                · rw [replay_append, hr1, hr2]
        · rw [if_neg hw] at h
          exact ih c b cc tr h

lemma dfsF_trace :
    ∀ fuel n c b cc tr, dfsF adj known fuel n c = some (b, cc, tr) →
      c n = Color.white → validTrace c tr = true ∧ replay c tr = cc := by
  intro fuel
  induction fuel with
  | zero =>
    intro n c b cc tr h
    rw [dfsF] at h
    cases h
  | succ fuel ih =>
    intro n c b cc tr h hw
    rw [dfsF] at h
    cases hd : dfsNbrsGo known (dfsF adj known fuel) (adj n)
        (updateColor c n Color.gray) with
    | none => rw [hd] at h; cases h
    | some r1 =>
      obtain ⟨b1, c2, tr2⟩ := r1
      rw [hd] at h
      obtain ⟨hv2, hr2⟩ := dfsNbrsGo_trace adj known fuel ih (adj n) _ b1 c2 tr2 hd
      cases b1 with
      | false =>
        simp only [Option.some.injEq, Prod.mk.injEq] at h
        obtain ⟨-, hc, htr⟩ := h
        rw [← hc, ← htr]
        constructor
        · rw [validTrace_cons, Bool.and_eq_true]
          exact ⟨decide_eq_true hw, hv2⟩
        · rw [replay_cons]
          exact hr2
      | true =>
        simp only [Option.some.injEq, Prod.mk.injEq] at h
        obtain ⟨-, hc, htr⟩ := h
        have hc2n : c2 n = Color.gray := by
          obtain ⟨hstep, -⟩ :=
            dfsNbrs_stepDone adj known fuel
              (fun a b2 b3 b4 hd2 hw2 =>
                dfsF_stepDone adj known fuel a b2 b3 b4 hd2 hw2)
              (adj n) _ c2 tr2 hd
          have hsn := hstep n
          rw [updateColor_self] at hsn
          exact stepDone_gray hsn
        rw [← hc, ← htr]
        constructor
        · rw [validTrace_cons, Bool.and_eq_true]
          refine ⟨decide_eq_true hw, ?_⟩
          rw [validTrace_append, hv2, hr2, validTrace_cons]
          have hvb : validWrite c2 n Color.black = true := decide_eq_true hc2n
          rw [hvb]
          rfl
        · rw [replay_cons, replay_append, hr2]
          rfl

lemma dfsAllF_trace (fuel : Nat) :
    ∀ l c b cc tr, dfsAllF adj known fuel l c = some (b, cc, tr) →
      validTrace c tr = true ∧ replay c tr = cc := by
  intro l
  induction l with
  | nil =>
    intro c b cc tr h
    rw [dfsAllF] at h
    simp only [Option.some.injEq, Prod.mk.injEq] at h
    obtain ⟨-, hc, htr⟩ := h
    rw [← hc, ← htr]
    exact ⟨rfl, rfl⟩
  | cons n rest ih =>
    intro c b cc tr h
    rw [dfsAllF] at h
    by_cases hw : c n = Color.white
    · rw [if_pos hw] at h
      cases hd : dfsF adj known fuel n c with
      | none => rw [hd] at h; cases h
      | some r1 =>
        obtain ⟨b1, c1, tr1⟩ := r1
        rw [hd] at h
        cases b1 with
        | false =>
          simp only [Option.some.injEq, Prod.mk.injEq] at h
          obtain ⟨-, hc, htr⟩ := h
          rw [← hc, ← htr]
          exact dfsF_trace adj known fuel n c false c1 tr1 hd hw
        | true =>
          dsimp only at h
          cases hrest : dfsAllF adj known fuel rest c1 with
          | none => rw [hrest] at h; cases h
          | some r2 =>
            obtain ⟨b2, c2, tr2⟩ := r2
            rw [hrest] at h
            simp only [Option.some.injEq, Prod.mk.injEq] at h
            obtain ⟨-, hc, htr⟩ := h
            obtain ⟨hv1, hr1⟩ := dfsF_trace adj known fuel n c true c1 tr1 hd hw
            obtain ⟨hv2, hr2⟩ := ih c1 b2 c2 tr2 hrest
            rw [← hc, ← htr]
            constructor
            · rw [validTrace_append, hv1, hr1, hv2]
              rfl
            · rw [replay_append, hr1, hr2]
    · rw [if_neg hw] at h
      exact ih c b cc tr h

end TraceLemmas

lemma hasCycle_iff_of_rel {ids₁ ids₂ : List String}
    {es₁ es₂ : List (String × String)}
    (h : ∀ x y, edgeRel ids₁ es₁ x y ↔ edgeRel ids₂ es₂ x y) :
    hasCycle ids₁ es₁ ↔ hasCycle ids₂ es₂ := by
  constructor
  · rintro ⟨z, hz⟩
    exact ⟨z, hz.mono (fun a b hab => (h a b).mp hab)⟩
  · rintro ⟨z, hz⟩
    exact ⟨z, hz.mono (fun a b hab => (h a b).mpr hab)⟩

/-- Claim C1: `is_dag` returns `true` exactly when the graph formed by the
listed identifiers and the edges with both endpoints listed contains no
directed cycle (self-loops included, as one-step cycles of `hasCycle`), and
returns `false` otherwise. -/
theorem is_dag_correct {π δ : Type} (nodes : List (Node π δ))
    (edges : List Edge) :
    (is_dag nodes edges = true ↔
      ¬ hasCycle (nodes.map Node.id)
        (edges.map fun e => (e.source, e.target))) ∧
    (is_dag nodes edges = false ↔
      hasCycle (nodes.map Node.id)
        (edges.map fun e => (e.source, e.target))) := by
  have h := is_dag_true_iff nodes edges
  refine ⟨h, ?_, ?_⟩
  · intro hf
    by_contra hnc
    rw [h.mpr hnc] at hf
    cases hf
  · intro hcyc
    cases hb : is_dag nodes edges with
    | false => rfl
    | true => exact absurd hcyc (h.mp hb)

/-- Claim C2: the operation's `num_nodes` output is the raw length of the
submitted node list and `num_edges` the raw length of the submitted edge
list — duplicates and edges with unknown endpoints are counted like any
other entry. -/
theorem parse_pipeline_counts {π δ : Type} (nodes : List (Node π δ))
    (edges : List Edge) :
    (parse_pipeline nodes edges).num_nodes = nodes.length ∧
    (parse_pipeline nodes edges).num_edges = edges.length :=
  ⟨rfl, rfl⟩

/-- Claim C3: edges whose source or target identifier is not in the node
list never change the boolean result — filtering them away leaves `is_dag`
unchanged — and the detection pass on the unfiltered input still completes
with a result (it never hits the fuel bound). -/
theorem dangling_edges_irrelevant {π δ : Type} (nodes : List (Node π δ))
    (edges : List Edge) :
    is_dag nodes edges =
      is_dag nodes (edges.filter (fun e =>
        decide (e.source ∈ nodes.map Node.id) &&
        decide (e.target ∈ nodes.map Node.id))) ∧
    ∃ r, runDetect (nodes.map Node.id)
        (edges.map fun e => (e.source, e.target)) = some r := by
  constructor
  · refine bool_eq_of_iff ?_
    rw [is_dag_true_iff, is_dag_true_iff]
    refine not_congr (hasCycle_iff_of_rel ?_)
    intro x y
    rw [edgeRel, edgeRel]
    constructor
    · rintro ⟨hm, hx, hy⟩
      refine ⟨?_, hx, hy⟩
      obtain ⟨e, he, heq⟩ := List.mem_map.mp hm
      refine List.mem_map.mpr ⟨e, List.mem_filter.mpr ⟨he, ?_⟩, heq⟩
      rw [Bool.and_eq_true, decide_eq_true_eq, decide_eq_true_eq]
      have h1 : e.source = x := congrArg Prod.fst heq
      have h2 : e.target = y := congrArg Prod.snd heq
      exact ⟨by rw [h1]; exact hx, by rw [h2]; exact hy⟩
    · rintro ⟨hm, hx, hy⟩
      refine ⟨?_, hx, hy⟩
      obtain ⟨e, hef, heq⟩ := List.mem_map.mp hm
      exact List.mem_map.mpr ⟨e, (List.mem_filter.mp hef).1, heq⟩
  · obtain ⟨b, cF, tr, heq, -⟩ := runDetect_spec (nodes.map Node.id)
      (edges.map fun e => (e.source, e.target))
    exact ⟨(b, cF, tr), heq⟩

/-- Claim C4: the core is total: on every input the fuel-indexed traversal
returns a result (the fuel bound of one unit per known node is never
exhausted, because `dfs` is only entered on `WHITE` nodes and immediately
colors them `GRAY`), `is_dag` equals that result's boolean, and
`parse_pipeline` always produces the triple of counts and boolean. -/
theorem core_total {π δ : Type} (nodes : List (Node π δ))
    (edges : List Edge) :
    ∃ b cF tr, runDetect (nodes.map Node.id)
        (edges.map fun e => (e.source, e.target)) = some (b, cF, tr) ∧
      is_dag nodes edges = b ∧
      parse_pipeline nodes edges = ⟨nodes.length, edges.length, b⟩ := by
  obtain ⟨b, cF, tr, heq, -⟩ := runDetect_spec (nodes.map Node.id)
    (edges.map fun e => (e.source, e.target))
  refine ⟨b, cF, tr, heq, ?_⟩
  have hdag : is_dag nodes edges = b := by
    by_cases hempty : nodes.isEmpty
    · have hnil : nodes = [] := List.isEmpty_iff.mp hempty
      subst hnil
      have hrfl : runDetect (List.map Node.id ([] : List (Node π δ)))
          (edges.map fun e => (e.source, e.target)) =
          some (true, fun _ => Color.white, []) := rfl
      rw [hrfl] at heq
      simp only [Option.some.injEq, Prod.mk.injEq] at heq
      obtain ⟨hb, -, -⟩ := heq
      have hid : is_dag ([] : List (Node π δ)) edges = true := rfl
      rw [hid]
      exact hb
    · rw [is_dag, if_neg hempty, heq]
  exact ⟨hdag, by rw [parse_pipeline, hdag]⟩


/-- Claim C5: during one detection pass every color write follows the
one-directional state machine `WHITE → GRAY → BLACK` from the node's current
color (`validTrace`), no node is written `GRAY` twice (so no node re-enters
the in-progress state — in particular `dfs`, whose first action is the `GRAY`
write, is never entered on an already-`GRAY` node), and after a node's
`BLACK` write no later write touches it. -/
theorem color_state_machine (ids : List String) (es : List (String × String)) :
    validTrace (fun _ => Color.white) (traceOf ids es) = true ∧
    (∀ x, grayWrites x (traceOf ids es) ≤ 1) ∧
    (∀ x t1 t2, traceOf ids es = t1 ++ (x, Color.black) :: t2 →
      ∀ p ∈ t2, p.1 ≠ x) := by
  cases hr : runDetect ids es with
  | none =>
    have htr : traceOf ids es = [] := by rw [traceOf, hr]
    rw [htr]
    refine ⟨rfl, fun x => Nat.zero_le 1, ?_⟩
    intro x t1 t2 hdec
    exact absurd hdec (by simp)
  | some r =>
    obtain ⟨b, cF, tr⟩ := r
    have htr : traceOf ids es = tr := by rw [traceOf, hr]
    have hrun : dfsAllF (adjOf ids.dedup es) (knownOf ids.dedup)
        ids.dedup.length ids.dedup (fun _ => Color.white) =
        some (b, cF, tr) := by
      rw [runDetect] at hr
      exact hr
    obtain ⟨hv, -⟩ := dfsAllF_trace (adjOf ids.dedup es) (knownOf ids.dedup)
      ids.dedup.length ids.dedup _ b cF tr hrun
    rw [htr]
    refine ⟨hv, fun x => validTrace_gray_le_one tr _ x hv, ?_⟩
    intro x t1 t2 hdec p hp
    rw [hdec] at hv
    rw [validTrace_append, Bool.and_eq_true] at hv
    obtain ⟨-, hv2⟩ := hv
    rw [validTrace_cons, Bool.and_eq_true] at hv2
    obtain ⟨-, hv3⟩ := hv2
    refine validTrace_black_stable t2 _ x hv3 ?_ p hp
    rw [updateColor_self]

theorem color_state_machine_witness :
    validTrace (fun _ => Color.white) (traceOf ["a"] []) = true ∧
    grayWrites "a" (traceOf ["a"] []) ≤ 1 ∧
    ∀ p ∈ ([] : Trace), p.1 ≠ "a" :=
  ⟨(color_state_machine ["a"] []).1,
    (color_state_machine ["a"] []).2.1 "a",
    (color_state_machine ["a"] []).2.2 "a" [("a", Color.gray)] [] rfl⟩

/-- Claim C6: the boolean result is order-independent: permuting the node
list and the edge list (which also realizes any reordering of each node's
neighbor list, since neighbor order is inherited from edge order) leaves
`is_dag` unchanged. -/
theorem result_order_independent {π δ : Type} (nodes₁ nodes₂ : List (Node π δ))
    (edges₁ edges₂ : List Edge) (hn : nodes₁.Perm nodes₂)
    (he : edges₁.Perm edges₂) :
    is_dag nodes₁ edges₁ = is_dag nodes₂ edges₂ := by
  refine bool_eq_of_iff ?_
  rw [is_dag_true_iff, is_dag_true_iff]
  refine not_congr (hasCycle_congr ?_ ?_)
  · intro x
    exact (hn.map Node.id).mem_iff
  · intro p
    exact (he.map (fun e => (e.source, e.target))).mem_iff

theorem result_order_independent_witness :
    List.Perm [(⟨"a", none, none, none⟩ : Node Unit Unit), ⟨"b", none, none, none⟩]
      [(⟨"b", none, none, none⟩ : Node Unit Unit), ⟨"a", none, none, none⟩] ∧
    List.Perm [(⟨none, "a", "b", none, none⟩ : Edge), ⟨none, "b", "a", none, none⟩]
      [(⟨none, "b", "a", none, none⟩ : Edge), ⟨none, "a", "b", none, none⟩] ∧
    is_dag [(⟨"a", none, none, none⟩ : Node Unit Unit), ⟨"b", none, none, none⟩]
        [⟨none, "a", "b", none, none⟩, ⟨none, "b", "a", none, none⟩] =
      is_dag [(⟨"b", none, none, none⟩ : Node Unit Unit), ⟨"a", none, none, none⟩]
        [⟨none, "b", "a", none, none⟩, ⟨none, "a", "b", none, none⟩] :=
  ⟨by decide, by decide,
    result_order_independent _ _ _ _ (by decide) (by decide)⟩

/-- Claim C7: appending a further copy of an edge already present in the
edge list leaves the detector's boolean unchanged: a repeated `(source,
target)` pair adds nothing beyond the first occurrence. -/
theorem duplicate_edge_noop {π δ : Type} (nodes : List (Node π δ))
    (edges : List Edge) (e : Edge) (he : e ∈ edges) :
    is_dag nodes (edges ++ [e]) = is_dag nodes edges := by
  refine bool_eq_of_iff ?_
  rw [is_dag_true_iff, is_dag_true_iff]
  refine not_congr (hasCycle_congr (fun x => Iff.rfl) ?_)
  intro p
  rw [List.map_append]
  constructor
  · intro hp
    rcases List.mem_append.mp hp with hp1 | hp1
    · exact hp1
    · simp only [List.map_cons, List.map_nil, List.mem_singleton] at hp1
      rw [hp1]
      exact List.mem_map.mpr ⟨e, he, rfl⟩
  · intro hp
    exact List.mem_append.mpr (Or.inl hp)

theorem duplicate_edge_noop_witness :
    (⟨none, "a", "b", none, none⟩ : Edge) ∈
      [(⟨none, "a", "b", none, none⟩ : Edge)] ∧
    is_dag [(⟨"a", none, none, none⟩ : Node Unit Unit), ⟨"b", none, none, none⟩]
        ([⟨none, "a", "b", none, none⟩] ++ [⟨none, "a", "b", none, none⟩]) =
      is_dag [(⟨"a", none, none, none⟩ : Node Unit Unit), ⟨"b", none, none, none⟩]
        [⟨none, "a", "b", none, none⟩] :=
  ⟨by decide, duplicate_edge_noop _ _ _ (by decide)⟩

/-- Claim C8: the check short-circuits on the first `GRAY` neighbor: (1) the
neighbor loop aborts at once with result `false`, the color map unchanged and
no further color write, ignoring all remaining neighbors; (2) a `dfs` call
that returns `false` leaves its node `GRAY` — the aborting node is never
marked done; (3) once a `dfs` call in the outer loop returns `false`, the
whole check returns that failure unchanged, never visiting the remaining
nodes. -/
theorem cycle_short_circuit :
    (∀ (known : String → Bool)
        (dfsRec : String → CMap → Option (Bool × CMap × Trace))
        (c : CMap) (m : String) (rest : List String),
      known m = true → c m = Color.gray →
      dfsNbrsGo known dfsRec (m :: rest) c = some (false, c, [])) ∧
    (∀ (adj : String → List String) (known : String → Bool) (fuel : Nat)
        (n : String) (c cc : CMap) (tr : Trace),
      dfsF adj known fuel n c = some (false, cc, tr) → c n = Color.white →
      cc n = Color.gray) ∧
    (∀ (adj : String → List String) (known : String → Bool) (fuel : Nat)
        (n : String) (c cc : CMap) (tr : Trace) (rest : List String),
      c n = Color.white → dfsF adj known fuel n c = some (false, cc, tr) →
      dfsAllF adj known fuel (n :: rest) c = some (false, cc, tr)) := by
  refine ⟨?_, ?_, ?_⟩
  · intro known dfsRec c m rest hk hg
    rw [dfsNbrsGo]
    rw [if_neg (by rw [hk]; intro hx; cases hx), if_pos hg]
  · intro adj known fuel n c cc tr h hw
    cases fuel with
    | zero => rw [dfsF] at h; cases h
    | succ fuel =>
      rw [dfsF] at h
      cases hd : dfsNbrsGo known (dfsF adj known fuel) (adj n)
          (updateColor c n Color.gray) with
      | none => rw [hd] at h; cases h
      | some r1 =>
        obtain ⟨b1, c2, tr2⟩ := r1
        rw [hd] at h
        cases b1 with
        | true =>
          simp only [Option.some.injEq, Prod.mk.injEq] at h
          obtain ⟨hb, -, -⟩ := h
          cases hb
        | false =>
          simp only [Option.some.injEq, Prod.mk.injEq] at h
          obtain ⟨-, hc, -⟩ := h
          have hstep := dfsNbrs_stepAny adj known fuel
            (fun a b2 b3 b4 b5 hd2 hw2 =>
              dfsF_stepAny adj known fuel a b2 b3 b4 b5 hd2 hw2)
            (adj n) _ false c2 tr2 hd n
          rw [updateColor_self] at hstep
          rw [← hc]
          exact stepAny_gray hstep
  · intro adj known fuel n c cc tr rest hw h
    rw [dfsAllF, if_pos hw, h]

theorem cycle_short_circuit_witness :
    dfsNbrsGo (fun _ => true) (fun _ _ => none) ("a" :: ["b"])
        (fun _ => Color.gray) = some (false, (fun _ => Color.gray), []) ∧
    updateColor (fun _ => Color.white) "a" Color.gray "a" = Color.gray ∧
    dfsAllF (fun _ => ["a"]) (fun _ => true) 1 ("a" :: ["z"])
        (fun _ => Color.white) =
      some (false, updateColor (fun _ => Color.white) "a" Color.gray,
        [("a", Color.gray)]) :=
  ⟨cycle_short_circuit.1 (fun _ => true) (fun _ _ => none)
      (fun _ => Color.gray) "a" ["b"] rfl rfl,
    cycle_short_circuit.2.1 (fun _ => ["a"]) (fun _ => true) 1 "a"
      (fun _ => Color.white) (updateColor (fun _ => Color.white) "a" Color.gray)
      [("a", Color.gray)] rfl rfl,
    cycle_short_circuit.2.2 (fun _ => ["a"]) (fun _ => true) 1 "a"
      (fun _ => Color.white) (updateColor (fun _ => Color.white) "a" Color.gray)
      [("a", Color.gray)] ["z"] rfl rfl⟩

/-- Claim C9: the operation is deterministic and reads nothing but the node
identifiers and the edge `(source, target)` pairs: two inputs agreeing on
those sequences — with arbitrary differing `type`/`position`/`data` node
payloads (even of different types) and differing edge `id`/handle fields —
produce identical responses, and running the operation twice on the same
input trivially yields the same output. -/
theorem output_depends_only_on_ids (π₁ δ₁ π₂ δ₂ : Type)
    (nodes₁ : List (Node π₁ δ₁)) (nodes₂ : List (Node π₂ δ₂))
    (edges₁ edges₂ : List Edge)
    (hids : nodes₁.map Node.id = nodes₂.map Node.id)
    (hpairs : edges₁.map (fun e => (e.source, e.target)) =
      edges₂.map (fun e => (e.source, e.target))) :
    parse_pipeline nodes₁ edges₁ = parse_pipeline nodes₂ edges₂ ∧
    parse_pipeline nodes₁ edges₁ = parse_pipeline nodes₁ edges₁ := by
  refine ⟨?_, rfl⟩
  have hln : nodes₁.length = nodes₂.length := by
    have h1 : (nodes₁.map Node.id).length = (nodes₂.map Node.id).length := by
      rw [hids]
    simpa using h1
  have hle : edges₁.length = edges₂.length := by
    have h1 : (edges₁.map (fun e => (e.source, e.target))).length =
        (edges₂.map (fun e => (e.source, e.target))).length := by
      rw [hpairs]
    simpa using h1
  have hemp : nodes₁.isEmpty = nodes₂.isEmpty := by
    cases nodes₁ with
    | nil =>
      cases nodes₂ with
      | nil => rfl
      | cons b m => simp at hids
    | cons a l =>
      cases nodes₂ with
      | nil => simp at hids
      | cons b m => rfl
  have hdag : is_dag nodes₁ edges₁ = is_dag nodes₂ edges₂ := by
    rw [is_dag, is_dag, hids, hpairs, hemp]
  rw [parse_pipeline, parse_pipeline, hln, hle, hdag]

theorem output_depends_only_on_ids_witness :
    ([(⟨"a", some "customInput", none, none⟩ : Node Unit Unit)].map Node.id =
      ([⟨"a", none, some 3, some true⟩] : List (Node Nat Bool)).map Node.id) ∧
    ([(⟨some "e1", "a", "a", some "h1", none⟩ : Edge)].map
        (fun e => (e.source, e.target)) =
      ([⟨none, "a", "a", none, some "h2"⟩] : List Edge).map
        (fun e => (e.source, e.target))) ∧
    parse_pipeline [(⟨"a", some "customInput", none, none⟩ : Node Unit Unit)]
        [⟨some "e1", "a", "a", some "h1", none⟩] =
      parse_pipeline ([⟨"a", none, some 3, some true⟩] : List (Node Nat Bool))
        [⟨none, "a", "a", none, some "h2"⟩] :=
  ⟨rfl, rfl,
    (output_depends_only_on_ids Unit Unit Nat Bool
      [(⟨"a", some "customInput", none, none⟩ : Node Unit Unit)]
      ([⟨"a", none, some 3, some true⟩] : List (Node Nat Bool))
      [⟨some "e1", "a", "a", some "h1", none⟩]
      [⟨none, "a", "a", none, some "h2"⟩] rfl rfl).1⟩

/-- Claim C10: `is_dag` is antitone in the edge list: if the edge list
`edges₁` is a sublist of `edges₂` and the smaller graph is already cyclic,
the larger one is cyclic too — adding edges never turns a cyclic graph
acyclic. -/
theorem is_dag_antitone_in_edges {π δ : Type} (nodes : List (Node π δ))
    (edges₁ edges₂ : List Edge) (hsub : edges₁.Sublist edges₂)
    (hfalse : is_dag nodes edges₁ = false) :
    is_dag nodes edges₂ = false := by
  cases hb : is_dag nodes edges₂ with
  | false => rfl
  | true =>
    exfalso
    have h2 := (is_dag_true_iff nodes edges₂).mp hb
    have hc1 : hasCycle (nodes.map Node.id)
        (edges₁.map fun e => (e.source, e.target)) := by
      by_contra hnc
      rw [(is_dag_true_iff nodes edges₁).mpr hnc] at hfalse
      cases hfalse
    refine h2 (hasCycle_mono ?_ hc1)
    intro p hp
    exact (hsub.map (fun e => (e.source, e.target))).subset hp

theorem is_dag_antitone_in_edges_witness :
    ([(⟨none, "a", "a", none, none⟩ : Edge)]).Sublist
      [⟨none, "a", "b", none, none⟩, ⟨none, "a", "a", none, none⟩] ∧
    is_dag [(⟨"a", none, none, none⟩ : Node Unit Unit)]
      [⟨none, "a", "a", none, none⟩] = false ∧
    is_dag [(⟨"a", none, none, none⟩ : Node Unit Unit)]
      [⟨none, "a", "b", none, none⟩, ⟨none, "a", "a", none, none⟩] = false :=
  ⟨by decide, by decide,
    is_dag_antitone_in_edges [(⟨"a", none, none, none⟩ : Node Unit Unit)]
      [⟨none, "a", "a", none, none⟩]
      [⟨none, "a", "b", none, none⟩, ⟨none, "a", "a", none, none⟩]
      (by decide) (by decide)⟩


end VecShift
